import Mathlib

/-!
# Ltd tag extraction (`ltd.c`)

A shallow embedding of the Ltd parser of ctags: the line classifier
`is_a_code_line`, the keyword matcher `have_keyword`, the name extractor
`extract_name`, the dispatcher `process_keyword` and the driver `findLtdTags`,
followed by theorems about them.

Conventions of the embedding.

* A line is the list of characters stored before the terminating NUL of the C
  string, one list element for each `char`; reading the position just after
  the last character yields NUL.
* A `char *` is either `line + i` or an address derived from `NULL`
  (`NULL + k`).  Reading through a pointer that is not inside the line (its
  terminator included) is recorded as a fault, and ends the run.
* `makeSimpleTag (name, LtdKinds, kind)` is the tag sink: a call appends the
  pair of the name and the kind index to the list of emitted tags.
* `isspace` is the one of the C locale.
-/

namespace Ltd

/-! ## Data definitions -/

/-- The characters of a C string, terminator excluded. -/
abbrev Line := List Char

/-- Well-formed C string content: no NUL before the terminator. -/
def NoNul (line : Line) : Prop := ∀ c ∈ line, c ≠ '\x00'

/-- Enumeration `ltaKind`. -/
def K_KEYWORD : Int := 0
/-- Enumeration `ltaKind`. -/
def K_RFX : Int := 1
/-- Enumeration `ltaKind`. -/
def K_VOC : Int := 2
/-- Enumeration `ltaKind`. -/
def K_VGRP : Int := 3
/-- Enumeration `ltaKind`. -/
def K_GRAM : Int := 4
/-- Enumeration `ltaKind`. -/
def K_VS : Int := 5

/-- One row of a kind table (`kindOption` of the host tool). -/
structure kindOption where
  enabled : Bool
  letter : Char
  name : String
  description : String
deriving DecidableEq, Repr

/-- The table `LtdKinds`. -/
def LtdKinds : List kindOption :=
  [ ⟨true, 'r', "rfx", "root_fix"⟩,
    ⟨true, 'v', "voc", "vocabulary"⟩,
    ⟨true, 'p', "voc_group", "vocabulary_group"⟩,
    ⟨true, 'g', "gram", "grammar"⟩,
    ⟨false, 's', "sentense", "vocabulary_sentense"⟩ ]

/-- Enumeration `kword_idx`. -/
def KW_ENUM : Int := 0
/-- Enumeration `kword_idx`. -/
def KW_RFX : Int := 1
/-- Enumeration `kword_idx`. -/
def KW_VOC : Int := 2
/-- Enumeration `kword_idx`. -/
def KW_VGRP : Int := 3
/-- Enumeration `kword_idx`. -/
def KW_GRAM : Int := 4
/-- Enumeration `kword_idx`. -/
def KW_VS : Int := 5
/-- Enumeration `kword_idx`. -/
def KW_ITEM : Int := 6
/-- Enumeration `kword_idx`. -/
def KW_RFREF : Int := 7
/-- Enumeration `kword_idx`. -/
def KW_VREF : Int := 8
/-- Enumeration `kword_idx`. -/
def KW_VGREF : Int := 9
/-- Enumeration `kword_idx`. -/
def KW_GREF : Int := 10

/-- The record `struct kword`. -/
structure kword where
  name : List Char
  valid : Bool
deriving DecidableEq, Repr

/-- The table `ltd_kwords`. -/
def ltd_kwords : List kword :=
  [ ⟨"ENUM".toList, true⟩,
    ⟨"RFX".toList, true⟩,
    ⟨"VOC".toList, true⟩,
    ⟨"VGRP".toList, true⟩,
    ⟨"GRAM".toList, true⟩,
    ⟨"VS".toList, false⟩,
    ⟨"ITEM".toList, true⟩,
    ⟨"RFREF".toList, false⟩,
    ⟨"VREF".toList, false⟩,
    ⟨"VGREF".toList, false⟩,
    ⟨"GREF".toList, false⟩ ]

/-- The literal `ltd_kwords[kw_type].name`. -/
def kw_name (kw_type : Int) : List Char :=
  (ltd_kwords.getD kw_type.toNat ⟨[], false⟩).name

/-! ## Pointers and the C library -/

/-- A `char *` value: `NULL + k`, or `line + i`. -/
inductive Ptr where
  | null (k : Nat)
  | line (i : Nat)
deriving DecidableEq, Repr

/-- The null pointer. -/
def NULL : Ptr := Ptr.null 0

/-- Pointer plus a non-negative integer. -/
def Ptr.add : Ptr → Nat → Ptr
  | Ptr.null k, n => Ptr.null (k + n)
  | Ptr.line i, n => Ptr.line (i + n)

/-- Pointer comparison `a < b`; the line lies above every address `NULL + k`. -/
def Ptr.lt : Ptr → Ptr → Bool
  | Ptr.null a, Ptr.null b => decide (a < b)
  | Ptr.null _, Ptr.line _ => true
  | Ptr.line _, Ptr.null _ => false
  | Ptr.line i, Ptr.line j => decide (i < j)

/-- The read `*p`: inside the line the character, at its end the terminator,
elsewhere nothing (a read out of bounds). -/
def deref (line : Line) : Ptr → Option Char
  | Ptr.null _ => none
  | Ptr.line i => if i ≤ line.length then some (line.getD i '\x00') else none

/-- C locale `isspace`: blank, and the range from tab to carriage return. -/
def isspace (c : Char) : Bool :=
  c.toNat == 32 || (9 ≤ c.toNat && c.toNat ≤ 13)

/-- Scan for the first `c` in the rest of the line that starts at offset `i`. -/
def strchr_from (c : Char) : List Char → Nat → Ptr
  | [], _ => NULL
  | x :: xs, i => if x = c then Ptr.line i else strchr_from c xs (i + 1)

/-- C `strchr (line, c)` for a character `c` other than NUL. -/
def strchr (line : Line) (c : Char) : Ptr := strchr_from c line 0

/-- Scan for the first occurrence of `needle` in the rest of the line that
starts at offset `i`. -/
def strstr_from (needle : List Char) : List Char → Nat → Ptr
  | [], i => if needle.isPrefixOf [] then Ptr.line i else NULL
  | x :: xs, i =>
    if needle.isPrefixOf (x :: xs) then Ptr.line i else strstr_from needle xs (i + 1)

/-- C `strstr (line, needle)`. -/
def strstr (line : Line) (needle : List Char) : Ptr := strstr_from needle line 0

/-! ## The tag sink -/

/-- A call `makeSimpleTag (name, LtdKinds, kind)`. -/
structure Tag where
  name : List Char
  kind : Int
deriving DecidableEq, Repr

/-- The row `LtdKinds[kind]` that the sink reads for a tag, when `kind` is an
index of the table. -/
def kind_entry (kind : Int) : Option kindOption :=
  if 0 ≤ kind then LtdKinds[kind.toNat]? else none

/-- How a run ended: normally, by a read out of bounds, or (for the bounded
loop of the embedding) by exhausting its iteration budget. -/
inductive Status where
  | ok
  | fault
  | fuel
deriving DecidableEq, Repr

/-- The tags handed to the sink, in order, and how the run ended. -/
structure Outcome where
  tags : List Tag
  status : Status
deriving DecidableEq, Repr

/-- Sequencing: the second run happens only when the first ended normally. -/
def Outcome.andThen (r k : Outcome) : Outcome :=
  match r.status with
  | Status.ok => ⟨r.tags ++ k.tags, k.status⟩
  | _ => r

/-! ## Function definitions -/

/-- The loop `while (isspace ((int) *p)) p++;` of `is_a_code_line`, on the rest
of the line at `p`. -/
def skip_space : List Char → List Char
  | [] => []
  | c :: cs => if isspace c then skip_space cs else c :: cs

/-- Function `is_a_code_line`. -/
def is_a_code_line (line : Line) : Bool :=
  let p := skip_space line
  if p.headD '\x00' = '\x00' then false
  else if p.headD '\x00' = '#' then false
  else true

/-- The loop `while (isspace ((int) *begin)) begin++;` on the rest of the line
at offset `i`: the offset where it stops. -/
def skip_fwd : List Char → Nat → Nat
  | [], i => i
  | c :: cs, i => if isspace c then skip_fwd cs (i + 1) else i

/-- The loop over `begin` of `extract_name`, from any pointer. -/
def trim_begin (line : Line) : Ptr → Option Nat
  | Ptr.null _ => none
  | Ptr.line i => if i ≤ line.length then some (skip_fwd (line.drop i) i) else none

/-- The loop `while (isspace ((int) *end)) end--;` from offset `i`: the offset
where it stops, or nothing when it steps below the start of the line and reads
there. -/
def skip_bwd (line : Line) : Nat → Option Nat
  | 0 => if isspace (line.getD 0 '\x00') then none else some 0
  | i + 1 => if isspace (line.getD (i + 1) '\x00') then skip_bwd line i else some (i + 1)

/-- The loop over `end` of `extract_name`, from any pointer. -/
def trim_end (line : Line) : Ptr → Option Nat
  | Ptr.null _ => none
  | Ptr.line i => if i ≤ line.length then skip_bwd line i else none

/-- The loop `for (cp = begin ; cp != end; cp++) vStringPut (name, (int) *cp);`
for `begin < end` inside the line. -/
def copy_span (line : Line) (b e : Nat) : List Char :=
  (line.drop b).take (e - b)

/-- Function `extract_name`. -/
def extract_name (line : Line) (begin_ end_ : Ptr) (kind : Int) : Outcome :=
  if begin_ ≠ NULL ∧ end_ ≠ NULL ∧ begin_.lt end_ = true then
    match trim_begin line begin_ with
    | none => ⟨[], Status.fault⟩
    | some b =>
      match trim_end line end_ with
      | none => ⟨[], Status.fault⟩
      | some e =>
        if b < e then ⟨[⟨copy_span line b e, kind⟩], Status.ok⟩
        else ⟨[], Status.ok⟩
  else ⟨[], Status.ok⟩

/-- The search loop of `have_keyword`, from table index `i` on. -/
def have_keyword_from (line : Line) : List kword → Int → Int
  | [], _ => -1
  | k :: ks, i =>
    if k.valid = true ∧ strstr line k.name ≠ NULL then i
    else have_keyword_from line ks (i + 1)

/-- Function `have_keyword`. -/
def have_keyword (line : Line) : Int := have_keyword_from line ltd_kwords 0

/-- The loop `while (pt < q)` of the `KW_ENUM` branch, with an iteration
budget. -/
def enum_loop (line : Line) (q : Ptr) : Nat → Ptr → Ptr → Outcome
  | 0, _, _ => ⟨[], Status.fuel⟩
  | n + 1, p, pt =>
    if pt.lt q = true then
      match deref line pt with
      | none => ⟨[], Status.fault⟩
      | some c =>
        if c = ',' then
          (extract_name line p pt K_KEYWORD).andThen (enum_loop line q n (pt.add 1) (pt.add 1))
        else enum_loop line q n p (pt.add 1)
    else ⟨[], Status.ok⟩

/-- Function `process_keyword`. -/
def process_keyword (kw_type : Int) (line : Line) : Outcome :=
  if kw_type = KW_ENUM then
    let pt := (strchr line '{').add 1
    let q := strchr line '}'
    enum_loop line q (line.length + 2) pt pt
  else if KW_RFX ≤ kw_type ∧ kw_type ≤ KW_VS then
    let p := (strstr line (kw_name kw_type)).add (kw_name kw_type).length
    let pt := strchr line '.'
    let q := if pt = NULL then strchr line '{' else pt
    extract_name line p q kw_type
  else if kw_type = KW_ITEM then
    let p := (strstr line (kw_name kw_type)).add (kw_name kw_type).length
    if strchr line '.' ≠ NULL then
      if strstr line "REF".toList = NULL then
        extract_name line p (strchr line '.') kw_type
      else ⟨[], Status.ok⟩
    else if strchr line ':' ≠ NULL then
      extract_name line p (strchr line ':') kw_type
    else ⟨[], Status.ok⟩
  else ⟨[], Status.ok⟩

/-- The body of the loop of `findLtdTags`, for one line. -/
def scan_line (line : Line) : Outcome :=
  if is_a_code_line line = false then ⟨[], Status.ok⟩
  else if have_keyword line ≥ 0 then process_keyword (have_keyword line) line
  else ⟨[], Status.ok⟩

/-- Function `findLtdTags`, over the lines that `fileReadLine` delivers. -/
def findLtdTags : List Line → Outcome
  | [] => ⟨[], Status.ok⟩
  | line :: rest => (scan_line line).andThen (findLtdTags rest)

/-! ## Specification vocabulary -/

/-- Whitespace removed at both ends. -/
def trim (s : List Char) : List Char :=
  ((s.dropWhile isspace).reverse.dropWhile isspace).reverse

/-- The text of the line from offset `a` up to, not including, offset `b`. -/
def slice (line : Line) (a b : Nat) : List Char :=
  (line.drop a).take (b - a)

/-- Offset `d` holds the first `c` of the line. -/
def FirstChar (l : Line) (c : Char) (d : Nat) : Prop :=
  l[d]? = some c ∧ ∀ j < d, l[j]? ≠ some c

/-- The first occurrence of `lit` in the line starts at offset `s`. -/
def FirstOcc (line : Line) (lit : List Char) (s : Nat) : Prop :=
  lit <+: line.drop s ∧ s ≤ line.length ∧ ∀ j < s, ¬ lit <+: line.drop j


/-- Table entry `i` is enabled and its literal occurs in the line as a
substring. -/
def Hit (line : Line) (i : Nat) : Prop :=
  ∃ k, ltd_kwords[i]? = some k ∧ k.valid = true ∧ k.name <:+: line

/-- The name holds a character that is not whitespace. -/
def NonBlank (s : List Char) : Prop := ∃ c ∈ s, isspace c = false

/-- The segments of a text that a comma closes, in order: for each comma the
text since the start or since the previous comma.  The text after the last
comma is no segment. -/
def comma_segments : List Char → List (List Char)
  | [] => []
  | c :: cs =>
    if c = ',' then [] :: comma_segments cs
    else
      match comma_segments cs with
      | [] => []
      | e :: es => (c :: e) :: es

/-- The segments of the text `r` when the text `cur` of the segment still open
precedes it. -/
def segments_after (cur r : List Char) : List (List Char) :=
  match comma_segments r with
  | [] => []
  | e :: es => (cur ++ e) :: es

/-- One `K_KEYWORD` tag for each segment that is not blank, named by the
segment without its leading whitespace. -/
def segment_tags (segs : List (List Char)) : List Tag :=
  (segs.filter (fun e => !(e.all isspace))).map (fun e => ⟨e.dropWhile isspace, K_KEYWORD⟩)

/-! ## The C library functions compute first occurrences -/

theorem strchr_from_null (c : Char) (l : List Char) (i : Nat) :
    strchr_from c l i = NULL ↔ c ∉ l := by
  induction l generalizing i with
  | nil => simp [strchr_from]
  | cons x xs ih =>
    by_cases h : x = c
    · simp [strchr_from, h, NULL]
    · have h2 : ¬ c = x := fun e => h e.symm
      simp [strchr_from, h, h2, ih]

theorem strchr_from_first (c : Char) (l : List Char) (i d : Nat) (h : FirstChar l c d) :
    strchr_from c l i = Ptr.line (i + d) := by
  induction l generalizing i d with
  | nil => simp [FirstChar] at h
  | cons x xs ih =>
    obtain ⟨h1, h2⟩ := h
    cases d with
    | zero =>
      simp only [List.getElem?_cons_zero, Option.some.injEq] at h1
      simp [strchr_from, h1]
    | succ d =>
      have hx : x ≠ c := by
        have := h2 0 (Nat.succ_pos d)
        simpa using this
      have hrec : FirstChar xs c d := by
        refine ⟨by simpa using h1, fun j hj => ?_⟩
        have := h2 (j + 1) (Nat.succ_lt_succ hj)
        simpa using this
      simp only [strchr_from, hx, if_false]
      rw [ih (i + 1) d hrec]
      congr 1
      omega

theorem strchr_first (line : Line) (c : Char) (d : Nat) (h : FirstChar line c d) :
    strchr line c = Ptr.line d := by
  have := strchr_from_first c line 0 d h
  simpa [strchr] using this

theorem strchr_null (line : Line) (c : Char) : strchr line c = NULL ↔ c ∉ line :=
  strchr_from_null c line 0

theorem strstr_from_null (needle l : List Char) (i : Nat) :
    strstr_from needle l i = NULL ↔ ¬ needle <:+: l := by
  induction l generalizing i with
  | nil =>
    by_cases h : needle = []
    · simp [strstr_from, h, NULL]
    · cases needle with
      | nil => exact absurd rfl h
      | cons a as => simp [strstr_from, List.isPrefixOf]
  | cons x xs ih =>
    by_cases h : needle.isPrefixOf (x :: xs) = true
    · have hp : needle <+: x :: xs := List.isPrefixOf_iff_prefix.mp h
      simp [strstr_from, h, NULL, hp.isInfix]
    · have hp : ¬ needle <+: x :: xs := fun hp => h (List.isPrefixOf_iff_prefix.mpr hp)
      simp only [strstr_from, h, if_false, Bool.false_eq_true]
      rw [ih (i + 1), List.infix_cons_iff]
      simp [hp]

theorem strstr_null (line : Line) (needle : List Char) :
    strstr line needle = NULL ↔ ¬ needle <:+: line :=
  strstr_from_null needle line 0

theorem strstr_from_first (needle l : List Char) (i s : Nat) (h : FirstOcc l needle s) :
    strstr_from needle l i = Ptr.line (i + s) := by
  induction l generalizing i s with
  | nil =>
    obtain ⟨h1, h2, _⟩ := h
    have hs : s = 0 := by simpa using h2
    subst hs
    have : needle = [] := by simpa using h1
    simp [strstr_from, this]
  | cons x xs ih =>
    obtain ⟨h1, h2, h3⟩ := h
    cases s with
    | zero =>
      have : needle.isPrefixOf (x :: xs) = true := List.isPrefixOf_iff_prefix.mpr (by simpa using h1)
      simp [strstr_from, this]
    | succ s =>
      have h0 : ¬ needle.isPrefixOf (x :: xs) = true := fun hp =>
        h3 0 (Nat.succ_pos s) (by simpa using List.isPrefixOf_iff_prefix.mp hp)
      have hrec : FirstOcc xs needle s := by
        refine ⟨by simpa using h1, by simpa using h2, fun j hj => ?_⟩
        have := h3 (j + 1) (Nat.succ_lt_succ hj)
        simpa using this
      simp only [strstr_from, h0, if_false, Bool.false_eq_true]
      rw [ih (i + 1) s hrec]
      congr 1
      omega

theorem strstr_first (line : Line) (needle : List Char) (s : Nat) (h : FirstOcc line needle s) :
    strstr line needle = Ptr.line s := by
  have := strstr_from_first needle line 0 s h
  simpa [strstr] using this

/-! ## The keyword matcher -/

theorem have_keyword_from_cases (line : Line) (ks : List kword) (i : Int) :
    (have_keyword_from line ks i = -1 ∧
        ∀ k ∈ ks, ¬ (k.valid = true ∧ k.name <:+: line)) ∨
    (∃ (n : Nat) (k : kword), have_keyword_from line ks i = i + n ∧ ks[n]? = some k ∧
        k.valid = true ∧ k.name <:+: line ∧
        ∀ m < n, ∀ k2, ks[m]? = some k2 → ¬ (k2.valid = true ∧ k2.name <:+: line)) := by
  induction ks generalizing i with
  | nil => left; simp [have_keyword_from]
  | cons k ks ih =>
    by_cases h : k.valid = true ∧ k.name <:+: line
    · right
      refine ⟨0, k, ?_, by simp, h.1, h.2, by simp⟩
      have h2 : strstr line k.name ≠ NULL := fun e => (strstr_null line k.name).mp e h.2
      simp [have_keyword_from, h.1, h2]
    · have h2 : ¬ (k.valid = true ∧ strstr line k.name ≠ NULL) := by
        rintro ⟨hv, hs⟩
        exact h ⟨hv, by
          by_contra hn
          exact hs ((strstr_null line k.name).mpr hn)⟩
      have hstep : have_keyword_from line (k :: ks) i = have_keyword_from line ks (i + 1) := by
        simp only [have_keyword_from, h2, if_false]
      rcases ih (i + 1) with ⟨e, hall⟩ | ⟨n, k1, e, hk1, hv, hin, hmin⟩
      · left
        refine ⟨by rw [hstep, e], fun k0 hk0 => ?_⟩
        rcases List.mem_cons.mp hk0 with rfl | hk0
        · exact h
        · exact hall k0 hk0
      · right
        refine ⟨n + 1, k1, ?_, by simpa using hk1, hv, hin, fun m hm k2 hk2 => ?_⟩
        · rw [hstep, e]; push_cast; ring
        · cases m with
          | zero =>
            have : k = k2 := by simpa using hk2
            subst this
            exact h
          | succ m => exact hmin m (by omega) k2 (by simpa using hk2)

theorem have_keyword_cases (line : Line) :
    (have_keyword line = -1 ∧ ∀ i, ¬ Hit line i) ∨
    (∃ n : Nat, have_keyword line = n ∧ Hit line n ∧ ∀ m < n, ¬ Hit line m) := by
  rcases have_keyword_from_cases line ltd_kwords 0 with ⟨e, hall⟩ | ⟨n, k, e, hk, hv, hin, hmin⟩
  · left
    refine ⟨e, fun i hi => ?_⟩
    obtain ⟨k, hk, hv, hin⟩ := hi
    exact hall k (List.getElem?_mem hk) ⟨hv, hin⟩
  · right
    refine ⟨n, by simpa [have_keyword] using e, ⟨k, hk, hv, hin⟩, fun m hm hhit => ?_⟩
    obtain ⟨k2, hk2, hv2, hin2⟩ := hhit
    exact hmin m hm k2 hk2 ⟨hv2, hin2⟩

theorem not_hit_disabled (line : Line) (n : Nat)
    (hn : n = 5 ∨ n = 7 ∨ n = 8 ∨ n = 9 ∨ n = 10) : ¬ Hit line n := by
  rintro ⟨k, hk, hv, _⟩
  rcases hn with rfl | rfl | rfl | rfl | rfl <;>
    · simp only [ltd_kwords, List.getElem?_cons_succ, List.getElem?_cons_zero,
        Option.some.injEq] at hk
      subst hk
      simp at hv

/-- C1: `have_keyword` returns the lowest index of an enabled table entry whose
literal is a substring of the line, returns -1 exactly when there is no such
entry, and never returns one of the disabled `KW_VS`, `KW_RFREF`, `KW_VREF`,
`KW_VGREF`, `KW_GREF`. -/
theorem have_keyword_spec (line : Line) :
    (∀ i : Nat, have_keyword line = (i : Int) ↔ (Hit line i ∧ ∀ j < i, ¬ Hit line j)) ∧
    (have_keyword line = -1 ↔ ∀ i, ¬ Hit line i) ∧
    (have_keyword line = -1 ∨ ∃ i : Nat, i < 11 ∧ have_keyword line = (i : Int)) ∧
    have_keyword line ≠ KW_VS ∧ have_keyword line ≠ KW_RFREF ∧
    have_keyword line ≠ KW_VREF ∧ have_keyword line ≠ KW_VGREF ∧
    have_keyword line ≠ KW_GREF := by
  rcases have_keyword_cases line with ⟨e, hno⟩ | ⟨n, e, hhit, hmin⟩
  · refine ⟨fun i => ⟨fun h => ?_, fun h => absurd h.1 (hno i)⟩, ⟨fun _ => hno, fun _ => e⟩,
      Or.inl e, ?_, ?_, ?_, ?_, ?_⟩
    · rw [e] at h
      omega
    all_goals simp [e, KW_VS, KW_RFREF, KW_VREF, KW_VGREF, KW_GREF]
  · have hlt : n < 11 := by
      obtain ⟨k, hk, _⟩ := hhit
      have := (List.getElem?_eq_some_iff.mp hk).1
      simpa [ltd_kwords] using this
    refine ⟨fun i => ⟨fun h => ?_, fun h => ?_⟩, ⟨fun h => ?_, fun h => absurd hhit (h n)⟩,
      Or.inr ⟨n, hlt, e⟩, ?_, ?_, ?_, ?_, ?_⟩
    · have : i = n := by rw [e] at h; exact_mod_cast h.symm
      subst this
      exact ⟨hhit, hmin⟩
    · have : i = n := by
        rcases Nat.lt_trichotomy i n with hlt | heq | hgt
        · exact absurd h.1 (hmin i hlt)
        · exact heq
        · exact absurd hhit (h.2 n hgt)
      rw [this, e]
    · rw [e] at h; omega
    all_goals
      intro h
      rw [e] at h
      refine not_hit_disabled line n ?_ hhit
      simp only [KW_VS, KW_RFREF, KW_VREF, KW_VGREF, KW_GREF] at h
      omega

/-! ## The line classifier -/

theorem skip_space_eq (l : List Char) : skip_space l = l.dropWhile isspace := by
  induction l with
  | nil => rfl
  | cons c cs ih =>
    by_cases h : isspace c = true
    · simp [skip_space, h, ih]
    · simp [skip_space, h]

theorem dropWhile_noNul (l : List Char) (h : NoNul l) : NoNul (l.dropWhile isspace) :=
  fun c hc => h c ((List.dropWhile_suffix isspace).subset hc)

/-- C2: `is_a_code_line` returns false if and only if the line, after all its
leading whitespace is skipped, is empty or begins with `#`, and returns true in
every other case. -/
theorem is_a_code_line_spec (line : Line) (hwf : NoNul line) :
    (is_a_code_line line = false ↔
      (line.dropWhile isspace = [] ∨ ∃ r, line.dropWhile isspace = '#' :: r)) ∧
    (is_a_code_line line = true ↔
      ¬ (line.dropWhile isspace = [] ∨ ∃ r, line.dropWhile isspace = '#' :: r)) := by
  have key : is_a_code_line line = false ↔
      (line.dropWhile isspace = [] ∨ ∃ r, line.dropWhile isspace = '#' :: r) := by
    have hnn := dropWhile_noNul line hwf
    unfold is_a_code_line
    simp only [skip_space_eq]
    cases hd : line.dropWhile isspace with
    | nil => simp
    | cons c r =>
      rw [hd] at hnn
      have hc : c ≠ '\x00' := hnn c (List.mem_cons_self c r)
      by_cases h : c = '#'
      · subst h; simp
      · simp [hc, h]
  refine ⟨key, ?_⟩
  rw [← key]
  cases is_a_code_line line <;> simp

/-- C2, at the lines `  # x` (a comment) and ` x` (code). -/
theorem is_a_code_line_spec_witness :
    NoNul "  # x".toList ∧
    (is_a_code_line "  # x".toList = false ↔
      ("  # x".toList.dropWhile isspace = [] ∨
        ∃ r, "  # x".toList.dropWhile isspace = '#' :: r)) :=
  ⟨by unfold NoNul; decide, (is_a_code_line_spec "  # x".toList (by unfold NoNul; decide)).1⟩

/-! ## The name extractor on a span that ends at a non-blank character -/

theorem skip_fwd_spec (l : List Char) (i n : Nat) (hn : n ≤ l.length)
    (hstop : isspace (l.getD n '\x00') = false) :
    i ≤ skip_fwd l i ∧ skip_fwd l i ≤ i + n ∧
    (l.drop (skip_fwd l i - i)).take (n - (skip_fwd l i - i)) = (l.take n).dropWhile isspace ∧
    (skip_fwd l i < i + n ↔ (l.take n).all isspace = false) := by
  induction l generalizing i n with
  | nil =>
    have : n = 0 := by simpa using hn
    subst this
    simp [skip_fwd]
  | cons c cs ih =>
    cases n with
    | zero =>
      have hc : isspace c = false := by simpa using hstop
      simp [skip_fwd, hc]
    | succ m =>
      by_cases hc : isspace c = true
      · have hm : m ≤ cs.length := by simpa using hn
        have hs : isspace (cs.getD m '\x00') = false := by simpa using hstop
        obtain ⟨h1, h2, h3, h4⟩ := ih (i + 1) m hm hs
        have e : skip_fwd (c :: cs) i = skip_fwd cs (i + 1) := by simp [skip_fwd, hc]
        rw [e]
        refine ⟨by omega, by omega, ?_, ?_⟩
        · have e1 : skip_fwd cs (i + 1) - i = (skip_fwd cs (i + 1) - (i + 1)) + 1 := by omega
          have e2 : m + 1 - (skip_fwd cs (i + 1) - (i + 1) + 1)
              = m - (skip_fwd cs (i + 1) - (i + 1)) := by omega
          rw [e1, List.drop_succ_cons, e2, h3]
          simp [hc]
        · have : (skip_fwd cs (i + 1) < i + (m + 1)) ↔ (skip_fwd cs (i + 1) < i + 1 + m) := by
            omega
          rw [this, h4]
          simp [hc]
      · have hc2 : isspace c = false := by simpa using hc
        simp [skip_fwd, hc2]

theorem skip_bwd_stop (line : Line) (q : Nat) (h : isspace (line.getD q '\x00') = false) :
    skip_bwd line q = some q := by
  cases q with
  | zero => rw [skip_bwd, h]; rfl
  | succ q => rw [skip_bwd, h]; rfl

theorem extract_name_span (line : Line) (p q : Nat) (kind : Int) (hpq : p < q)
    (hq : q ≤ line.length) (hstop : isspace (line.getD q '\x00') = false) :
    extract_name line (Ptr.line p) (Ptr.line q) kind =
      if (slice line p q).all isspace = true then ⟨[], Status.ok⟩
      else ⟨[⟨(slice line p q).dropWhile isspace, kind⟩], Status.ok⟩ := by
  have hn : q - p ≤ (line.drop p).length := by simp; omega
  have hs : isspace ((line.drop p).getD (q - p) '\x00') = false := by
    have : (line.drop p).getD (q - p) '\x00' = line.getD q '\x00' := by
      simp only [List.getD_eq_getElem?_getD, List.getElem?_drop]
      congr 2
      omega
    rw [this]; exact hstop
  obtain ⟨h1, h2, h3, h4⟩ := skip_fwd_spec (line.drop p) p (q - p) hn hs
  have hp : p ≤ line.length := by omega
  have hcond : (Ptr.line p ≠ NULL ∧ Ptr.line q ≠ NULL ∧ (Ptr.line p).lt (Ptr.line q) = true) := by
    simp [NULL, Ptr.lt, hpq]
  unfold extract_name
  rw [if_pos hcond]
  simp only [trim_begin, trim_end, hp, hq, if_true, skip_bwd_stop line q hstop]
  by_cases hall : (slice line p q).all isspace = true
  · have hnb : ¬ skip_fwd (List.drop p line) p < q := by
      intro hb
      have : skip_fwd (List.drop p line) p < p + (q - p) := by omega
      have := h4.mp this
      unfold slice at hall
      rw [hall] at this
      exact absurd this (by simp)
    simp only [hnb, if_false, hall, if_true]
  · have hall2 : ((line.drop p).take (q - p)).all isspace = false := by
      unfold slice at hall
      simpa using hall
    have hb : skip_fwd (List.drop p line) p < q := by
      have := h4.mpr hall2
      omega
    simp only [hb, if_true, hall, if_false]
    congr 3
    unfold copy_span slice
    have e1 : q - p - (skip_fwd (List.drop p line) p - p) = q - skip_fwd (List.drop p line) p := by
      omega
    have e2 : p + (skip_fwd (List.drop p line) p - p) = skip_fwd (List.drop p line) p := by
      omega
    rw [← h3, List.drop_drop, e1, e2]

theorem trim_dropWhile (l : List Char) : trim (l.dropWhile isspace) = trim l := by
  unfold trim
  rw [List.dropWhile_idempotent]

theorem firstChar_lt {l : Line} {c : Char} {d : Nat} (h : FirstChar l c d) : d < l.length :=
  (List.getElem?_eq_some_iff.mp h.1).1

theorem firstChar_getD {l : Line} {c : Char} {d : Nat} (h : FirstChar l c d) :
    l.getD d '\x00' = c := by
  simp [List.getD_eq_getElem?_getD, h.1]

theorem firstChar_ne_null {l : Line} {c : Char} {d : Nat} (h : FirstChar l c d) :
    strchr l c ≠ NULL := by
  rw [strchr_first l c d h]
  simp [NULL]

theorem slice_nonblank {line : Line} {p q : Nat}
    (h : ∃ c ∈ slice line p q, isspace c = false) :
    p < q ∧ ¬ (slice line p q).all isspace = true := by
  obtain ⟨c, hc, hsp⟩ := h
  constructor
  · by_contra hle
    have : q - p = 0 := by omega
    simp [slice, this] at hc
  · intro hall
    have := List.all_eq_true.mp hall c hc
    rw [hsp] at this
    exact absurd this (by simp)

/-- A span that starts inside the line, ends at a delimiter that is not
whitespace and holds a character that is not whitespace yields exactly one tag:
the span without its leading whitespace. -/
theorem extract_name_delim (line : Line) (p d : Nat) (c : Char) (kind : Int)
    (hd : FirstChar line c d) (hc : isspace c = false)
    (hns : ∃ x ∈ slice line p d, isspace x = false) :
    extract_name line (Ptr.line p) (Ptr.line d) kind =
      ⟨[⟨(slice line p d).dropWhile isspace, kind⟩], Status.ok⟩ := by
  obtain ⟨hpd, hall⟩ := slice_nonblank hns
  have hstop : isspace (line.getD d '\x00') = false := by rw [firstChar_getD hd]; exact hc
  rw [extract_name_span line p d kind hpd (le_of_lt (firstChar_lt hd)) hstop, if_neg hall]

/-! ## The `KW_ENUM` branch -/

theorem enum_loop_no_comma (line : Line) (j : Nat) (hj : j ≤ line.length) (n : Nat) :
    ∀ (p : Ptr) (pt : Nat), j - pt < n →
      (∀ k, pt ≤ k → k < j → (line)[k]? ≠ some ',') →
      enum_loop line (Ptr.line j) n p (Ptr.line pt) = ⟨[], Status.ok⟩ := by
  induction n with
  | zero => intro p pt h; omega
  | succ n ih =>
    intro p pt hfuel hnc
    by_cases hlt : pt < j
    · have hne : line.getD pt '\x00' ≠ ',' := by
        have h1 := hnc pt (le_refl pt) hlt
        have h2 : pt < line.length := by omega
        rw [List.getD_eq_getElem?_getD, List.getElem?_eq_getElem h2]
        rw [List.getElem?_eq_getElem h2] at h1
        simpa using h1
      have hle : pt ≤ line.length := by omega
      simp only [enum_loop, Ptr.lt, hlt, decide_True, if_true, deref, hle, hne, if_false,
        Ptr.add]
      exact ih p (pt + 1) (by omega) (fun k hk1 hk2 => hnc k (by omega) hk2)
    · simp [enum_loop, Ptr.lt, hlt]

/-- C4: a line matched as `ENUM` that has a `{` and a `}` and no comma between
the first `{` and the first `}` yields no tag. -/
theorem enum_no_comma_no_tag (line : Line) (i j : Nat)
    (hmatch : have_keyword line = KW_ENUM)
    (hi : FirstChar line '{' i) (hj : FirstChar line '}' j)
    (hnc : ∀ k, i < k → k < j → (line)[k]? ≠ some ',') :
    process_keyword (have_keyword line) line = ⟨[], Status.ok⟩ := by
  rw [hmatch]
  unfold process_keyword
  have hjl := firstChar_lt hj
  simp only [if_true, strchr_first line '{' i hi, strchr_first line '}' j hj, Ptr.add]
  exact enum_loop_no_comma line j (le_of_lt (firstChar_lt hj)) _ _ (i + 1) (by omega)
    (fun k hk1 hk2 => hnc k (by omega) hk2)

/-- C4, at the line `ENUM{A}`. -/
theorem enum_no_comma_no_tag_witness :
    have_keyword "ENUM\x7bA\x7d".toList = KW_ENUM ∧
    FirstChar "ENUM\x7bA\x7d".toList '{' 4 ∧ FirstChar "ENUM\x7bA\x7d".toList '}' 6 ∧
    process_keyword (have_keyword "ENUM\x7bA\x7d".toList) "ENUM\x7bA\x7d".toList = ⟨[], Status.ok⟩ :=
  ⟨by decide, by unfold FirstChar; decide, by unfold FirstChar; decide,
    enum_no_comma_no_tag "ENUM\x7bA\x7d".toList 4 6 (by decide) (by unfold FirstChar; decide)
      (by unfold FirstChar; decide)
      (fun k h1 h2 => by
        have hk : k = 5 := by omega
        subst hk
        decide)⟩

/-! ## The branch of `KW_RFX` to `KW_VS` -/

theorem process_keyword_range (kw : Int) (line : Line) (h1 : KW_RFX ≤ kw) (h2 : kw ≤ KW_VS) :
    process_keyword kw line =
      extract_name line ((strstr line (kw_name kw)).add (kw_name kw).length)
        (if strchr line '.' = NULL then strchr line '{' else strchr line '.') kw := by
  have h0 : ¬ kw = KW_ENUM := by
    simp only [KW_RFX, KW_ENUM] at *
    omega
  unfold process_keyword
  rw [if_neg h0, if_pos ⟨h1, h2⟩]

theorem line_ne_null (d : Nat) : Ptr.line d ≠ NULL := by simp [NULL]

/-- C5: a line matched as `RFX`, `VOC`, `VGRP` or `GRAM` whose first `.` lies
after the end of the first occurrence of the keyword literal, with a character
that is not whitespace between them, yields exactly one tag; its name is the
text between the literal and that `.` without its leading whitespace, so it
agrees with that text up to surrounding whitespace, whatever `{` the line has. -/
theorem keyword_dot_one_tag (line : Line) (kw : Int) (s d : Nat)
    (hkw : kw = KW_RFX ∨ kw = KW_VOC ∨ kw = KW_VGRP ∨ kw = KW_GRAM)
    (hmatch : have_keyword line = kw)
    (hs : FirstOcc line (kw_name kw) s)
    (hd : FirstChar line '.' d)
    (_hafter : s + (kw_name kw).length ≤ d)
    (hns : ∃ x ∈ slice line (s + (kw_name kw).length) d, isspace x = false) :
    ∃ name, process_keyword (have_keyword line) line = ⟨[⟨name, kw⟩], Status.ok⟩ ∧
      name = (slice line (s + (kw_name kw).length) d).dropWhile isspace ∧
      trim name = trim (slice line (s + (kw_name kw).length) d) := by
  have hr : KW_RFX ≤ kw ∧ kw ≤ KW_VS := by
    simp only [KW_RFX, KW_VOC, KW_VGRP, KW_GRAM, KW_VS] at *
    omega
  refine ⟨_, ?_, rfl, trim_dropWhile _⟩
  rw [hmatch, process_keyword_range kw line hr.1 hr.2, strstr_first line _ s hs,
    strchr_first line '.' d hd, if_neg (line_ne_null d)]
  exact extract_name_delim line _ d '.' kw hd (by decide) hns

/-- C5, at the line `RFX foo.`. -/
theorem keyword_dot_one_tag_witness :
    have_keyword "RFX foo.".toList = KW_RFX ∧
    FirstOcc "RFX foo.".toList (kw_name KW_RFX) 0 ∧
    FirstChar "RFX foo.".toList '.' 7 ∧
    ∃ name, process_keyword (have_keyword "RFX foo.".toList) "RFX foo.".toList
        = ⟨[⟨name, KW_RFX⟩], Status.ok⟩ ∧
      name = (slice "RFX foo.".toList (0 + (kw_name KW_RFX).length) 7).dropWhile isspace ∧
      trim name = trim (slice "RFX foo.".toList (0 + (kw_name KW_RFX).length) 7) :=
  ⟨by decide, by unfold FirstOcc; decide, by unfold FirstChar; decide,
    keyword_dot_one_tag "RFX foo.".toList KW_RFX 0 7 (Or.inl rfl) (by decide)
      (by unfold FirstOcc; decide) (by unfold FirstChar; decide) (by decide)
      ⟨'f', by decide, by decide⟩⟩

/-- C6: a line matched as `RFX`, `VOC`, `VGRP` or `GRAM` that has no `.` and
whose first `{` lies after the end of the first occurrence of the keyword
literal, with a character that is not whitespace between them, yields exactly
one tag; its name is the text between the literal and that `{` without its
leading whitespace, so it agrees with that text up to surrounding whitespace. -/
theorem keyword_brace_one_tag (line : Line) (kw : Int) (s b : Nat)
    (hkw : kw = KW_RFX ∨ kw = KW_VOC ∨ kw = KW_VGRP ∨ kw = KW_GRAM)
    (hmatch : have_keyword line = kw)
    (hs : FirstOcc line (kw_name kw) s)
    (hnodot : '.' ∉ line)
    (hb : FirstChar line '{' b)
    (_hafter : s + (kw_name kw).length ≤ b)
    (hns : ∃ x ∈ slice line (s + (kw_name kw).length) b, isspace x = false) :
    ∃ name, process_keyword (have_keyword line) line = ⟨[⟨name, kw⟩], Status.ok⟩ ∧
      name = (slice line (s + (kw_name kw).length) b).dropWhile isspace ∧
      trim name = trim (slice line (s + (kw_name kw).length) b) := by
  have hr : KW_RFX ≤ kw ∧ kw ≤ KW_VS := by
    simp only [KW_RFX, KW_VOC, KW_VGRP, KW_GRAM, KW_VS] at *
    omega
  refine ⟨_, ?_, rfl, trim_dropWhile _⟩
  rw [hmatch, process_keyword_range kw line hr.1 hr.2, strstr_first line _ s hs,
    (strchr_null line '.').mpr hnodot, if_pos rfl, strchr_first line '{' b hb]
  exact extract_name_delim line _ b '{' kw hb (by decide) hns

/-- C6, at the line `VOC bar{`. -/
theorem keyword_brace_one_tag_witness :
    have_keyword "VOC bar\x7b".toList = KW_VOC ∧
    FirstOcc "VOC bar\x7b".toList (kw_name KW_VOC) 0 ∧
    '.' ∉ "VOC bar\x7b".toList ∧
    FirstChar "VOC bar\x7b".toList '{' 7 ∧
    ∃ name, process_keyword (have_keyword "VOC bar\x7b".toList) "VOC bar\x7b".toList
        = ⟨[⟨name, KW_VOC⟩], Status.ok⟩ ∧
      name = (slice "VOC bar\x7b".toList (0 + (kw_name KW_VOC).length) 7).dropWhile isspace ∧
      trim name = trim (slice "VOC bar\x7b".toList (0 + (kw_name KW_VOC).length) 7) :=
  ⟨by decide, by unfold FirstOcc; decide, by decide, by unfold FirstChar; decide,
    keyword_brace_one_tag "VOC bar\x7b".toList KW_VOC 0 7 (Or.inr (Or.inl rfl)) (by decide)
      (by unfold FirstOcc; decide) (by decide) (by unfold FirstChar; decide) (by decide)
      ⟨'b', by decide, by decide⟩⟩

/-! ## The `KW_ITEM` branch -/

theorem process_keyword_item (line : Line) :
    process_keyword KW_ITEM line =
      if strchr line '.' ≠ NULL then
        if strstr line "REF".toList = NULL then
          extract_name line ((strstr line (kw_name KW_ITEM)).add (kw_name KW_ITEM).length)
            (strchr line '.') KW_ITEM
        else ⟨[], Status.ok⟩
      else if strchr line ':' ≠ NULL then
        extract_name line ((strstr line (kw_name KW_ITEM)).add (kw_name KW_ITEM).length)
          (strchr line ':') KW_ITEM
      else ⟨[], Status.ok⟩ := by
  have h0 : ¬ KW_ITEM = KW_ENUM := by decide
  have h1 : ¬ (KW_RFX ≤ KW_ITEM ∧ KW_ITEM ≤ KW_VS) := by decide
  unfold process_keyword
  rw [if_neg h0, if_neg h1, if_pos rfl]

/-- C9: for a line matched as `ITEM` that has a `.`: when `REF` occurs in the
line, no tag is emitted; when `REF` does not occur and the first `.` lies after
the end of the first occurrence of `ITEM`, with a character that is not
whitespace between them, exactly one tag is emitted, and its name is the text
between the literal and that `.` without its leading whitespace, so it agrees
with that text up to surrounding whitespace. -/
theorem item_dot_spec (line : Line)
    (hmatch : have_keyword line = KW_ITEM) (hdot : '.' ∈ line) :
    ("REF".toList <:+: line →
      process_keyword (have_keyword line) line = ⟨[], Status.ok⟩) ∧
    (¬ "REF".toList <:+: line → ∀ s d : Nat,
      FirstOcc line "ITEM".toList s → FirstChar line '.' d → s + 4 ≤ d →
      (∃ x ∈ slice line (s + 4) d, isspace x = false) →
      ∃ name, process_keyword (have_keyword line) line = ⟨[⟨name, KW_ITEM⟩], Status.ok⟩ ∧
        name = (slice line (s + 4) d).dropWhile isspace ∧
        trim name = trim (slice line (s + 4) d)) := by
  have hne : strchr line '.' ≠ NULL := fun e => (strchr_null line '.').mp e hdot
  rw [hmatch, process_keyword_item, if_pos hne]
  constructor
  · intro href
    have : ¬ strstr line "REF".toList = NULL := fun e => (strstr_null line _).mp e href
    rw [if_neg this]
  · intro href s d hs hd _ hns
    refine ⟨_, ?_, rfl, trim_dropWhile _⟩
    have hk : kw_name KW_ITEM = "ITEM".toList := by decide
    rw [if_pos ((strstr_null line _).mpr href), hk, strstr_first line _ s hs,
      strchr_first line '.' d hd]
    exact extract_name_delim line _ d '.' KW_ITEM hd (by decide) hns

/-- C9, at the lines `ITEM bazREF.` and `ITEM baz.`. -/
theorem item_dot_spec_witness :
    (have_keyword "ITEM bazREF.".toList = KW_ITEM ∧ '.' ∈ "ITEM bazREF.".toList ∧
      process_keyword (have_keyword "ITEM bazREF.".toList) "ITEM bazREF.".toList
        = ⟨[], Status.ok⟩) ∧
    (have_keyword "ITEM baz.".toList = KW_ITEM ∧ '.' ∈ "ITEM baz.".toList ∧
      ∃ name, process_keyword (have_keyword "ITEM baz.".toList) "ITEM baz.".toList
          = ⟨[⟨name, KW_ITEM⟩], Status.ok⟩ ∧
        name = (slice "ITEM baz.".toList (0 + 4) 8).dropWhile isspace ∧
        trim name = trim (slice "ITEM baz.".toList (0 + 4) 8)) :=
  ⟨⟨by decide, by decide,
      (item_dot_spec "ITEM bazREF.".toList (by decide) (by decide)).1 (by decide)⟩,
    ⟨by decide, by decide,
      (item_dot_spec "ITEM baz.".toList (by decide) (by decide)).2 (by decide) 0 8
        (by unfold FirstOcc; decide) (by unfold FirstChar; decide) (by decide)
        ⟨'b', by decide, by decide⟩⟩⟩

/-- C10: a line matched as `ITEM` that has no `.` and whose first `:` lies after
the end of the first occurrence of `ITEM`, with a character that is not
whitespace between them, yields exactly one tag, whether or not `REF` occurs in
the line; its name is the text between the literal and that `:` without its
leading whitespace, so it agrees with that text up to surrounding whitespace. -/
theorem item_colon_one_tag (line : Line) (s d : Nat)
    (hmatch : have_keyword line = KW_ITEM)
    (hnodot : '.' ∉ line)
    (hs : FirstOcc line "ITEM".toList s)
    (hd : FirstChar line ':' d)
    (_hafter : s + 4 ≤ d)
    (hns : ∃ x ∈ slice line (s + 4) d, isspace x = false) :
    ∃ name, process_keyword (have_keyword line) line = ⟨[⟨name, KW_ITEM⟩], Status.ok⟩ ∧
      name = (slice line (s + 4) d).dropWhile isspace ∧
      trim name = trim (slice line (s + 4) d) := by
  refine ⟨_, ?_, rfl, trim_dropWhile _⟩
  have hk : kw_name KW_ITEM = "ITEM".toList := by decide
  have h1 : ¬ strchr line '.' ≠ NULL := fun h => h ((strchr_null line '.').mpr hnodot)
  rw [hmatch, process_keyword_item, if_neg h1, if_pos (firstChar_ne_null hd), hk,
    strstr_first line _ s hs, strchr_first line ':' d hd]
  exact extract_name_delim line _ d ':' KW_ITEM hd (by decide) hns

/-- C10, at the line `ITEM quxREF:`, which contains `REF`. -/
theorem item_colon_one_tag_witness :
    have_keyword "ITEM quxREF:".toList = KW_ITEM ∧ '.' ∉ "ITEM quxREF:".toList ∧
    "REF".toList <:+: "ITEM quxREF:".toList ∧
    FirstOcc "ITEM quxREF:".toList "ITEM".toList 0 ∧
    FirstChar "ITEM quxREF:".toList ':' 11 ∧
    ∃ name, process_keyword (have_keyword "ITEM quxREF:".toList) "ITEM quxREF:".toList
        = ⟨[⟨name, KW_ITEM⟩], Status.ok⟩ ∧
      name = (slice "ITEM quxREF:".toList (0 + 4) 11).dropWhile isspace ∧
      trim name = trim (slice "ITEM quxREF:".toList (0 + 4) 11) :=
  ⟨by decide, by decide, by decide, by unfold FirstOcc; decide, by unfold FirstChar; decide,
    item_colon_one_tag "ITEM quxREF:".toList 0 11 (by decide) (by decide)
      (by unfold FirstOcc; decide) (by unfold FirstChar; decide) (by decide)
      ⟨'q', by decide, by decide⟩⟩

/-! ## The iteration budget of the `KW_ENUM` loop is never exhausted -/

theorem strchr_from_cases (c : Char) (l : List Char) (i : Nat) :
    strchr_from c l i = NULL ∨ ∃ d, FirstChar l c d ∧ strchr_from c l i = Ptr.line (i + d) := by
  by_cases h : c ∈ l
  · right
    induction l generalizing i with
    | nil => simp at h
    | cons x xs ih =>
      by_cases hx : x = c
      · exact ⟨0, ⟨by simp [hx], by simp⟩, by simp [strchr_from, hx]⟩
      · have hmem : c ∈ xs := by
          rcases List.mem_cons.mp h with e | e
          · exact absurd e.symm hx
          · exact e
        obtain ⟨d, hd, _⟩ := ih (i + 1) hmem
        have hfirst : FirstChar (x :: xs) c (d + 1) := by
          refine ⟨by simpa using hd.1, fun j hj => ?_⟩
          cases j with
          | zero => simpa using hx
          | succ j => simpa using hd.2 j (by omega)
        exact ⟨d + 1, hfirst, strchr_from_first c (x :: xs) i (d + 1) hfirst⟩
  · left
    exact (strchr_from_null c l i).mpr h

theorem strchr_cases (line : Line) (c : Char) :
    strchr line c = NULL ∨ ∃ d, FirstChar line c d ∧ strchr line c = Ptr.line d := by
  rcases strchr_from_cases c line 0 with h | ⟨d, hd, h⟩
  · exact Or.inl h
  · exact Or.inr ⟨d, hd, by simpa [strchr] using h⟩

theorem extract_name_status (line : Line) (b e : Ptr) (kind : Int) :
    (extract_name line b e kind).status ≠ Status.fuel := by
  unfold extract_name
  split
  · split
    · simp
    · split
      · simp
      · split <;> simp
  · simp

theorem andThen_status (r k : Outcome) (hr : r.status ≠ Status.fuel)
    (hk : k.status ≠ Status.fuel) : (r.andThen k).status ≠ Status.fuel := by
  unfold Outcome.andThen
  split
  · exact hk
  · exact hr

theorem enum_loop_null (line : Line) (n : Nat) (p pt : Ptr) :
    enum_loop line NULL (n + 1) p pt = ⟨[], Status.ok⟩ := by
  cases pt <;> simp [enum_loop, Ptr.lt, NULL]

theorem enum_loop_from_null (line : Line) (j n k : Nat) (p : Ptr) :
    enum_loop line (Ptr.line j) (n + 1) p (Ptr.null k) = ⟨[], Status.fault⟩ := by
  simp [enum_loop, Ptr.lt, deref]

theorem enum_loop_status (line : Line) (j : Nat) (hj : j ≤ line.length) (n : Nat) :
    ∀ (p : Ptr) (i : Nat), j - i < n →
      (enum_loop line (Ptr.line j) n p (Ptr.line i)).status ≠ Status.fuel := by
  induction n with
  | zero => intro p i h; omega
  | succ n ih =>
    intro p i hfuel
    by_cases hlt : i < j
    · have hle : i ≤ line.length := by omega
      simp only [enum_loop, Ptr.lt, hlt, decide_True, if_true, deref, hle, Ptr.add]
      split
      · exact andThen_status _ _ (extract_name_status _ _ _ _) (ih _ (i + 1) (by omega))
      · exact ih p (i + 1) (by omega)
    · simp [enum_loop, Ptr.lt, hlt]

/-- The run of `process_keyword` always ends, normally or by a fault: the
budget given to the `KW_ENUM` loop suffices for every line. -/
theorem process_keyword_status (kw : Int) (line : Line) :
    (process_keyword kw line).status ≠ Status.fuel := by
  unfold process_keyword
  split
  · rcases strchr_cases line '}' with hq | ⟨j, hj, hq⟩
    · simp only [hq]
      rw [enum_loop_null]
      simp
    · have hjl := firstChar_lt hj
      simp only [hq]
      rcases strchr_cases line '{' with hp | ⟨i, _, hp⟩
      · simp only [hp, NULL, Ptr.add]
        rw [enum_loop_from_null]
        simp
      · simp only [hp, Ptr.add]
        exact enum_loop_status line j (le_of_lt hjl) _ _ (i + 1) (by omega)
  · split
    · exact extract_name_status _ _ _ _
    · split
      · split
        · split
          · exact extract_name_status _ _ _ _
          · simp
        · split
          · exact extract_name_status _ _ _ _
          · simp
      · simp

/-! ## Where the code departs from its description -/

/-- C3, on the code: the line `ENUM{A, B, C}` is matched as `ENUM` and yields
the two tags `A`, `B` (the entry before `}` is not extracted), and the line
`ENUM{ A , B,C }` yields the two tags `A ` (with its trailing blank) and `B`;
neither yields the three tags `A`, `B`, `C`. -/
theorem enum_three_entries_two_tags :
    have_keyword "ENUM\x7bA, B, C\x7d".toList = KW_ENUM ∧
    process_keyword (have_keyword "ENUM\x7bA, B, C\x7d".toList) "ENUM\x7bA, B, C\x7d".toList
      = ⟨[⟨"A".toList, K_KEYWORD⟩, ⟨"B".toList, K_KEYWORD⟩], Status.ok⟩ ∧
    have_keyword "ENUM\x7b A , B,C \x7d".toList = KW_ENUM ∧
    process_keyword (have_keyword "ENUM\x7b A , B,C \x7d".toList) "ENUM\x7b A , B,C \x7d".toList
      = ⟨[⟨"A ".toList, K_KEYWORD⟩, ⟨"B".toList, K_KEYWORD⟩], Status.ok⟩ := by
  refine ⟨?_, ?_, ?_, ?_⟩ <;> decide

/-- C7, on the code: the tag of `RFX foo.` is handed to the sink with kind
index 1, which is the row `voc` (letter `v`) of `LtdKinds`, not the row `rfx`;
the tag of `VOC bar{` carries index 2, the row `voc_group` (letter `p`). -/
theorem rfx_tag_selects_voc_row :
    scan_line "RFX foo.".toList = ⟨[⟨"foo".toList, 1⟩], Status.ok⟩ ∧
    kind_entry 1 = some ⟨true, 'v', "voc", "vocabulary"⟩ ∧
    scan_line "VOC bar\x7b".toList = ⟨[⟨"bar".toList, 2⟩], Status.ok⟩ ∧
    kind_entry 2 = some ⟨true, 'p', "voc_group", "vocabulary_group"⟩ := by
  refine ⟨?_, ?_, ?_, ?_⟩ <;> decide

/-- C8, on the code: in the line `ENUM{ A ,}` the span from offset 5 to offset
8 is the text ` A `, and `extract_name` emits for it the name `A ` with the
trailing blank, not `A`; `process_keyword` hands exactly that name to the
sink. -/
theorem extract_name_keeps_trailing_blank :
    slice "ENUM\x7b A ,\x7d".toList 5 8 = " A ".toList ∧
    extract_name "ENUM\x7b A ,\x7d".toList (Ptr.line 5) (Ptr.line 8) K_KEYWORD
      = ⟨[⟨"A ".toList, K_KEYWORD⟩], Status.ok⟩ ∧
    trim " A ".toList = "A".toList ∧
    process_keyword (have_keyword "ENUM\x7b A ,\x7d".toList) "ENUM\x7b A ,\x7d".toList
      = ⟨[⟨"A ".toList, K_KEYWORD⟩], Status.ok⟩ := by
  refine ⟨?_, ?_, ?_, ?_⟩ <;> decide


/-! ## Every emitted name starts with a character that is not whitespace -/

theorem skip_fwd_stop (l : List Char) (i : Nat) :
    i ≤ skip_fwd l i ∧ skip_fwd l i ≤ i + l.length ∧
    isspace (l.getD (skip_fwd l i - i) '\x00') = false := by
  induction l generalizing i with
  | nil => simp [skip_fwd, isspace]
  | cons c cs ih =>
    by_cases hc : isspace c = true
    · obtain ⟨h1, h2, h3⟩ := ih (i + 1)
      have e : skip_fwd (c :: cs) i = skip_fwd cs (i + 1) := by simp [skip_fwd, hc]
      rw [e]
      refine ⟨by omega, by simp only [List.length_cons]; omega, ?_⟩
      have e1 : skip_fwd cs (i + 1) - i = (skip_fwd cs (i + 1) - (i + 1)) + 1 := by omega
      rw [e1]
      simpa using h3
    · have hc2 : isspace c = false := by simpa using hc
      simp [skip_fwd, hc2]

theorem skip_bwd_le (line : Line) (i e : Nat) (h : skip_bwd line i = some e) : e ≤ i := by
  induction i with
  | zero =>
    unfold skip_bwd at h
    split at h
    · simp at h
    · simp at h; omega
  | succ i ih =>
    unfold skip_bwd at h
    split at h
    · have := ih h; omega
    · simp at h; omega

/-- What `extract_name` hands to the sink: the kind it was given, and a name
whose first character is not whitespace. -/
theorem extract_name_tags (line : Line) (b e : Ptr) (kind : Int) (t : Tag)
    (ht : t ∈ (extract_name line b e kind).tags) :
    t.kind = kind ∧ ∃ c, t.name.head? = some c ∧ isspace c = false := by
  unfold extract_name at ht
  split at ht
  · cases b with
    | null k => simp [trim_begin] at ht
    | line i =>
      cases e with
      | null k => simp [trim_begin, trim_end] at ht; split at ht <;> simp at ht
      | line k =>
        by_cases hi : i ≤ line.length
        · by_cases hk : k ≤ line.length
          · simp only [trim_begin, trim_end, hi, hk, if_true] at ht
            cases hbw : skip_bwd line k with
            | none => simp [hbw] at ht
            | some e2 =>
              simp only [hbw] at ht
              have hle := skip_bwd_le line k e2 hbw
              obtain ⟨h1, h2, h3⟩ := skip_fwd_stop (line.drop i) i
              split at ht
              · rename_i hlt
                simp only [List.mem_singleton] at ht
                subst ht
                refine ⟨rfl, ?_⟩
                have hb : skip_fwd (List.drop i line) i < line.length := by omega
                obtain ⟨c, hc⟩ : ∃ c, (line)[skip_fwd (List.drop i line) i]? = some c :=
                  ⟨_, List.getElem?_eq_getElem hb⟩
                have hidx : i + (skip_fwd (List.drop i line) i - i)
                    = skip_fwd (List.drop i line) i := by omega
                rw [List.getD_eq_getElem?_getD, List.getElem?_drop, hidx, hc] at h3
                refine ⟨c, ?_, by simpa using h3⟩
                have hm : e2 - skip_fwd (List.drop i line) i ≠ 0 := by omega
                simp [copy_span, List.head?_take, hm, List.head?_drop, hc]
              · simp at ht
          · simp [trim_begin, trim_end, hi, hk] at ht
        · simp [trim_begin, hi] at ht
  · simp at ht

theorem andThen_tags (r k : Outcome) (t : Tag) (ht : t ∈ (r.andThen k).tags) :
    t ∈ r.tags ∨ t ∈ k.tags := by
  unfold Outcome.andThen at ht
  split at ht
  · exact List.mem_append.mp ht
  · exact Or.inl ht

theorem enum_loop_tags (line : Line) (q : Ptr) (n : Nat) :
    ∀ (p pt : Ptr) (t : Tag), t ∈ (enum_loop line q n p pt).tags →
      t.kind = K_KEYWORD ∧ ∃ c, t.name.head? = some c ∧ isspace c = false := by
  induction n with
  | zero => intro p pt t ht; simp [enum_loop] at ht
  | succ n ih =>
    intro p pt t ht
    unfold enum_loop at ht
    split at ht
    · split at ht
      · simp at ht
      · split at ht
        · rcases andThen_tags _ _ t ht with h | h
          · exact extract_name_tags line p pt K_KEYWORD t h
          · exact ih _ _ t h
        · exact ih _ _ t ht
    · simp at ht

/-- The tags of `process_keyword`: the kind is `K_KEYWORD` in the `KW_ENUM`
branch and `kw_type` itself in the others, and the name starts with a
character that is not whitespace. -/
theorem process_keyword_tags (kw : Int) (line : Line) (t : Tag)
    (ht : t ∈ (process_keyword kw line).tags) :
    (if kw = KW_ENUM then t.kind = K_KEYWORD else t.kind = kw) ∧
      ∃ c, t.name.head? = some c ∧ isspace c = false := by
  unfold process_keyword at ht
  by_cases h0 : kw = KW_ENUM
  · rw [if_pos h0] at ht
    rw [if_pos h0]
    exact enum_loop_tags line _ _ _ _ t ht
  · rw [if_neg h0] at ht
    rw [if_neg h0]
    split at ht
    · exact extract_name_tags line _ _ kw t ht
    · split at ht
      · split at ht
        · split at ht
          · exact extract_name_tags line _ _ kw t ht
          · simp at ht
        · split at ht
          · exact extract_name_tags line _ _ kw t ht
          · simp at ht
      · simp at ht

theorem scan_line_tags (line : Line) (t : Tag) (ht : t ∈ (scan_line line).tags) :
    t ∈ (process_keyword (have_keyword line) line).tags ∧ 0 ≤ have_keyword line := by
  unfold scan_line at ht
  split at ht
  · simp at ht
  · split at ht
    · rename_i h
      exact ⟨ht, h⟩
    · simp at ht

theorem findLtdTags_tags (lines : List Line) (t : Tag) (ht : t ∈ (findLtdTags lines).tags) :
    ∃ line ∈ lines, t ∈ (scan_line line).tags := by
  induction lines with
  | nil => simp [findLtdTags] at ht
  | cons l ls ih =>
    rcases andThen_tags _ _ t ht with h | h
    · exact ⟨l, List.mem_cons_self l ls, h⟩
    · obtain ⟨l2, hl2, h2⟩ := ih h
      exact ⟨l2, List.mem_cons_of_mem l hl2, h2⟩

theorem mem_dropWhile_of_false {c : Char} {s : List Char} (hc : c ∈ s)
    (hsp : isspace c = false) : c ∈ s.dropWhile isspace := by
  induction s with
  | nil => simp at hc
  | cons x xs ih =>
    by_cases hx : isspace x = true
    · rcases List.mem_cons.mp hc with e | e
      · subst e; rw [hsp] at hx; exact absurd hx (by simp)
      · simpa [List.dropWhile_cons, hx] using ih e
    · simpa [List.dropWhile_cons, hx] using hc

theorem trim_ne_nil {s : List Char} (h : NonBlank s) : trim s ≠ [] := by
  obtain ⟨c, hc, hsp⟩ := h
  have h1 : c ∈ (s.dropWhile isspace).reverse :=
    List.mem_reverse.mpr (mem_dropWhile_of_false hc hsp)
  have h2 : c ∈ trim s := List.mem_reverse.mpr (mem_dropWhile_of_false h1 hsp)
  exact List.ne_nil_of_mem h2

theorem nonBlank_of_head {s : List Char} (h : ∃ c, s.head? = some c ∧ isspace c = false) :
    NonBlank s := by
  obtain ⟨c, hc, hsp⟩ := h
  exact ⟨c, List.mem_of_mem_head? hc, hsp⟩

/-- C11: every tag that the driver emits, for any lines and any keyword kind,
has a name that is not empty, holds a character that is not whitespace (its
first one), and is still not empty after trimming. -/
theorem emitted_name_nonblank (lines : List Line) (t : Tag)
    (ht : t ∈ (findLtdTags lines).tags) :
    t.name ≠ [] ∧ NonBlank t.name ∧ trim t.name ≠ [] ∧
      ∃ c, t.name.head? = some c ∧ isspace c = false := by
  obtain ⟨line, _, hl⟩ := findLtdTags_tags lines t ht
  have h := (process_keyword_tags _ line t (scan_line_tags line t hl).1).2
  have hnb := nonBlank_of_head h
  refine ⟨?_, hnb, trim_ne_nil hnb, h⟩
  obtain ⟨c, hc, _⟩ := hnb
  exact List.ne_nil_of_mem hc

/-- C11, at the lines `ENUM{ A ,}` and `RFX foo.` and the tag of the second. -/
theorem emitted_name_nonblank_witness :
    (⟨"foo".toList, 1⟩ : Tag) ∈
        (findLtdTags ["ENUM\x7b A ,\x7d".toList, "RFX foo.".toList]).tags ∧
    "foo".toList ≠ [] ∧ NonBlank "foo".toList ∧ trim "foo".toList ≠ [] :=
  ⟨by decide,
    (emitted_name_nonblank ["ENUM\x7b A ,\x7d".toList, "RFX foo.".toList] ⟨"foo".toList, 1⟩
      (by decide)).1,
    (emitted_name_nonblank ["ENUM\x7b A ,\x7d".toList, "RFX foo.".toList] ⟨"foo".toList, 1⟩
      (by decide)).2.1,
    (emitted_name_nonblank ["ENUM\x7b A ,\x7d".toList, "RFX foo.".toList] ⟨"foo".toList, 1⟩
      (by decide)).2.2.1⟩


/-! ## The driver -/

theorem andThen_nil_ok (k : Outcome) : Outcome.andThen ⟨[], Status.ok⟩ k = k := by
  simp [Outcome.andThen]

theorem andThen_assoc (a b c : Outcome) :
    (a.andThen b).andThen c = a.andThen (b.andThen c) := by
  obtain ⟨ta, sa⟩ := a
  obtain ⟨tb, sb⟩ := b
  cases sa <;> cases sb <;> simp [Outcome.andThen]

/-- Scanning a sequence of lines followed by another: the second part is
scanned after the first, unless the first part ended by a fault. -/
theorem findLtdTags_append (xs ys : List Line) :
    findLtdTags (xs ++ ys) = (findLtdTags xs).andThen (findLtdTags ys) := by
  induction xs with
  | nil => simp [findLtdTags, andThen_nil_ok]
  | cons x xs ih =>
    show (scan_line x).andThen (findLtdTags (xs ++ ys))
      = ((scan_line x).andThen (findLtdTags xs)).andThen (findLtdTags ys)
    rw [ih, andThen_assoc]

/-- A line that yields nothing and ends normally can be removed from the
input of the driver. -/
theorem findLtdTags_skip (line : Line) (h : scan_line line = ⟨[], Status.ok⟩)
    (before after : List Line) :
    findLtdTags (before ++ line :: after) = findLtdTags (before ++ after) := by
  rw [findLtdTags_append, findLtdTags_append]
  simp only [findLtdTags, h, andThen_nil_ok]

/-- C12: a line that is empty, holds only whitespace, or has `#` as its first
character that is not whitespace yields no tag in the driver, whatever keyword
literals and delimiters it contains: its scan emits nothing, and the output of
the driver is the same with and without that line. -/
theorem comment_line_no_tag (line : Line)
    (h : line.dropWhile isspace = [] ∨ ∃ r, line.dropWhile isspace = '#' :: r) :
    scan_line line = ⟨[], Status.ok⟩ ∧
    ∀ before after : List Line,
      findLtdTags (before ++ line :: after) = findLtdTags (before ++ after) := by
  have hcode : is_a_code_line line = false := by
    unfold is_a_code_line
    simp only [skip_space_eq]
    rcases h with h | ⟨r, h⟩
    · simp [h]
    · simp [h]
  have hscan : scan_line line = ⟨[], Status.ok⟩ := by
    unfold scan_line
    rw [if_pos hcode]
  exact ⟨hscan, findLtdTags_skip line hscan⟩

/-- C12, at the lines `# RFX foo.` and `  #ENUM{A,B,}`. -/
theorem comment_line_no_tag_witness :
    ("# RFX foo.".toList.dropWhile isspace = "# RFX foo.".toList ∧
      scan_line "# RFX foo.".toList = ⟨[], Status.ok⟩) ∧
    ("  #ENUM\x7bA,B,\x7d".toList.dropWhile isspace = "#ENUM\x7bA,B,\x7d".toList ∧
      scan_line "  #ENUM\x7bA,B,\x7d".toList = ⟨[], Status.ok⟩) :=
  ⟨⟨by decide, (comment_line_no_tag "# RFX foo.".toList
      (Or.inr ⟨" RFX foo.".toList, by decide⟩)).1⟩,
    ⟨by decide, (comment_line_no_tag "  #ENUM\x7bA,B,\x7d".toList
      (Or.inr ⟨"ENUM\x7bA,B,\x7d".toList, by decide⟩)).1⟩⟩

/-- C13: a line that contains none of the enabled literals `ENUM`, `RFX`,
`VOC`, `VGRP`, `GRAM`, `ITEM` as a substring is not matched and yields no tag in
the driver, whatever disabled literals and delimiters it contains. -/
theorem no_keyword_no_tag (line : Line)
    (h : ∀ lit ∈ ["ENUM".toList, "RFX".toList, "VOC".toList, "VGRP".toList, "GRAM".toList,
      "ITEM".toList], ¬ lit <:+: line) :
    have_keyword line = -1 ∧ scan_line line = ⟨[], Status.ok⟩ ∧
    ∀ before after : List Line,
      findLtdTags (before ++ line :: after) = findLtdTags (before ++ after) := by
  have hk : have_keyword line = -1 := by
    rcases have_keyword_cases line with ⟨e, _⟩ | ⟨n, _, ⟨k, hk, hv, hin⟩, _⟩
    · exact e
    · exfalso
      have hmem := List.getElem?_mem hk
      simp only [ltd_kwords, List.mem_cons, List.mem_singleton, List.not_mem_nil,
        or_false] at hmem
      rcases hmem with rfl | rfl | rfl | rfl | rfl | rfl | rfl | rfl | rfl | rfl | rfl
      all_goals first
        | exact absurd hv (by decide)
        | exact h _ (by simp) hin
  have hscan : scan_line line = ⟨[], Status.ok⟩ := by
    unfold scan_line
    rw [hk]
    split
    · rfl
    · rfl
  exact ⟨hk, hscan, findLtdTags_skip line hscan⟩

/-- C13, at the lines `VS foo.` and `GREF bar.`. -/
theorem no_keyword_no_tag_witness :
    scan_line "VS foo.".toList = ⟨[], Status.ok⟩ ∧
    scan_line "GREF bar.".toList = ⟨[], Status.ok⟩ :=
  ⟨(no_keyword_no_tag "VS foo.".toList (by decide)).2.1,
    (no_keyword_no_tag "GREF bar.".toList (by decide)).2.1⟩

/-- C15: a line matched as `ITEM` that has neither `.` nor `:`, and a line
matched as `RFX`, `VOC`, `VGRP` or `GRAM` that has neither `.` nor `{`, yields
no tag, and the run ends normally. -/
theorem no_delimiter_no_tag (line : Line) (kw : Int)
    (hmatch : have_keyword line = kw) (hnodot : '.' ∉ line)
    (h : (kw = KW_ITEM ∧ ':' ∉ line) ∨
      ((kw = KW_RFX ∨ kw = KW_VOC ∨ kw = KW_VGRP ∨ kw = KW_GRAM) ∧ '{' ∉ line)) :
    process_keyword (have_keyword line) line = ⟨[], Status.ok⟩ := by
  have hd : strchr line '.' = NULL := (strchr_null line '.').mpr hnodot
  rw [hmatch]
  rcases h with ⟨rfl, hc⟩ | ⟨hkw, hb⟩
  · have hc2 : strchr line ':' = NULL := (strchr_null line ':').mpr hc
    rw [process_keyword_item]
    simp [hd, hc2]
  · have hb2 : strchr line '{' = NULL := (strchr_null line '{').mpr hb
    have hr : KW_RFX ≤ kw ∧ kw ≤ KW_VS := by
      simp only [KW_RFX, KW_VOC, KW_VGRP, KW_GRAM, KW_VS] at *
      omega
    rw [process_keyword_range kw line hr.1 hr.2, hd, if_pos rfl, hb2]
    simp [extract_name]

/-- C15, at the lines `ITEM qux` and `GRAM g`. -/
theorem no_delimiter_no_tag_witness :
    (have_keyword "ITEM qux".toList = KW_ITEM ∧
      process_keyword (have_keyword "ITEM qux".toList) "ITEM qux".toList = ⟨[], Status.ok⟩) ∧
    (have_keyword "GRAM g".toList = KW_GRAM ∧
      process_keyword (have_keyword "GRAM g".toList) "GRAM g".toList = ⟨[], Status.ok⟩) :=
  ⟨⟨by decide, no_delimiter_no_tag "ITEM qux".toList KW_ITEM (by decide) (by decide)
      (Or.inl ⟨rfl, by decide⟩)⟩,
    ⟨by decide, no_delimiter_no_tag "GRAM g".toList KW_GRAM (by decide) (by decide)
      (Or.inr ⟨by decide, by decide⟩)⟩⟩


/-! ## The `KW_ENUM` loop, segment by segment -/

theorem slice_self (line : Line) (a : Nat) : slice line a a = [] := by
  simp [slice]

theorem slice_cons {line : Line} {a b : Nat} {c : Char} {r : List Char}
    (h : slice line a b = c :: r) :
    a < b ∧ a < line.length ∧ line.getD a '\x00' = c ∧ slice line (a + 1) b = r := by
  unfold slice at h
  have hab : a < b := by
    by_contra hle
    have : b - a = 0 := by omega
    simp [this] at h
  have hal : a < line.length := by
    by_contra hle
    have : line.drop a = [] := List.drop_eq_nil_of_le (by omega)
    simp [this] at h
  obtain ⟨m, hm⟩ : ∃ m, b - a = m + 1 := ⟨b - a - 1, by omega⟩
  rw [List.drop_eq_getElem_cons hal, hm, List.take_succ_cons] at h
  obtain ⟨h1, h2⟩ := List.cons.inj h
  refine ⟨hab, hal, ?_, ?_⟩
  · rw [List.getD_eq_getElem?_getD, List.getElem?_eq_getElem hal]
    simpa using h1
  · unfold slice
    have : b - (a + 1) = m := by omega
    rw [this]
    exact h2

theorem slice_nil {line : Line} {a b : Nat} (h : slice line a b = []) (hb : b ≤ line.length) :
    ¬ a < b := by
  intro hab
  have hlen : (slice line a b).length = b - a := by
    simp only [slice, List.length_take, List.length_drop]
    omega
  rw [h] at hlen
  simp at hlen
  omega

theorem slice_snoc {line : Line} {p pt : Nat} {c : Char} (hp : p ≤ pt) (hpt : pt < line.length)
    (hc : line.getD pt '\x00' = c) : slice line p (pt + 1) = slice line p pt ++ [c] := by
  unfold slice
  have e1 : pt + 1 - p = (pt - p) + 1 := by omega
  have hlt : pt - p < (line.drop p).length := by simp; omega
  rw [e1, List.take_succ, List.getElem?_drop]
  have e2 : p + (pt - p) = pt := by omega
  rw [e2, List.getElem?_eq_getElem hpt]
  rw [List.getD_eq_getElem?_getD, List.getElem?_eq_getElem hpt] at hc
  simp only [Option.getD_some] at hc
  simp [hc]

theorem segments_after_nil (r : List Char) : segments_after [] r = comma_segments r := by
  unfold segments_after
  cases comma_segments r <;> simp

theorem segments_after_comma (cur cs : List Char) :
    segments_after cur (',' :: cs) = cur :: comma_segments cs := by
  simp [segments_after, comma_segments]

theorem segments_after_char (cur cs : List Char) (c : Char) (hc : c ≠ ',') :
    segments_after cur (c :: cs) = segments_after (cur ++ [c]) cs := by
  unfold segments_after
  simp only [comma_segments, hc, if_false]
  cases comma_segments cs <;> simp

theorem segment_tags_cons (e : List Char) (es : List (List Char)) :
    segment_tags (e :: es) = segment_tags [e] ++ segment_tags es := by
  unfold segment_tags
  by_cases h : e.all isspace = true
  · simp [List.filter_cons, h]
  · simp [List.filter_cons, h]

theorem extract_name_ge (line : Line) (p q : Nat) (kind : Int) (h : ¬ p < q) :
    extract_name line (Ptr.line p) (Ptr.line q) kind = ⟨[], Status.ok⟩ := by
  simp [extract_name, Ptr.lt, h]

/-- At a comma, `extract_name` emits the tag of the segment that the comma
closes, or nothing when the segment is blank. -/
theorem extract_name_comma (line : Line) (p pt : Nat) (hpt : pt < line.length)
    (hc : line.getD pt '\x00' = ',') :
    extract_name line (Ptr.line p) (Ptr.line pt) K_KEYWORD
      = ⟨segment_tags [slice line p pt], Status.ok⟩ := by
  by_cases hlt : p < pt
  · have hstop : isspace (line.getD pt '\x00') = false := by rw [hc]; decide
    rw [extract_name_span line p pt K_KEYWORD hlt (le_of_lt hpt) hstop]
    by_cases hall : (slice line p pt).all isspace = true
    · simp [segment_tags, hall]
    · simp [segment_tags, hall]
  · rw [extract_name_ge line p pt K_KEYWORD hlt]
    have : slice line p pt = [] := by
      unfold slice
      have : pt - p = 0 := by omega
      simp [this]
    simp [segment_tags, this]

theorem enum_loop_segments (line : Line) (j : Nat) (hj : j ≤ line.length) (r : List Char) :
    ∀ (pt p n : Nat), p ≤ pt → slice line pt j = r → r.length < n →
      enum_loop line (Ptr.line j) n (Ptr.line p) (Ptr.line pt)
        = ⟨segment_tags (segments_after (slice line p pt) r), Status.ok⟩ := by
  induction r with
  | nil =>
    intro pt p n _ hr hn
    have hnlt := slice_nil hr hj
    obtain ⟨m, rfl⟩ : ∃ m, n = m + 1 := ⟨n - 1, by simp at hn; omega⟩
    simp [enum_loop, Ptr.lt, hnlt, segments_after, comma_segments, segment_tags]
  | cons c cs ih =>
    intro pt p n hp hr hn
    obtain ⟨hlt, hpl, hget, hrest⟩ := slice_cons hr
    obtain ⟨m, rfl⟩ : ∃ m, n = m + 1 := ⟨n - 1, by simp at hn; omega⟩
    have hm : cs.length < m := by simp at hn; omega
    have hle : pt ≤ line.length := le_of_lt hpl
    by_cases hc : c = ','
    · subst hc
      have hrec := ih (pt + 1) (pt + 1) m (le_refl _) hrest hm
      rw [slice_self, segments_after_nil] at hrec
      simp only [enum_loop, Ptr.lt, hlt, decide_True, if_true, deref, hle, hget, Ptr.add]
      rw [segments_after_comma, segment_tags_cons, hrec, extract_name_comma line p pt hpl hget]
      simp [Outcome.andThen]
    · have hrec := ih (pt + 1) p m (by omega) hrest hm
      rw [slice_snoc hp hpl hget] at hrec
      simp only [enum_loop, Ptr.lt, hlt, decide_True, if_true, deref, hle, hget, hc, if_false,
        Ptr.add]
      rw [hrec, segments_after_char _ _ _ hc]

/-- The text before the last comma is the segments, each followed by its
comma, and the segments hold no comma. -/
theorem comma_segments_spec (s : List Char) :
    (∀ e ∈ comma_segments s, ',' ∉ e) ∧
    ∃ rest, ',' ∉ rest ∧
      s = ((comma_segments s).map (fun e => e ++ [','])).flatten ++ rest := by
  induction s with
  | nil => exact ⟨by simp [comma_segments], [], by simp, by simp [comma_segments]⟩
  | cons c cs ih =>
    obtain ⟨h1, rest, h2, h3⟩ := ih
    by_cases hc : c = ','
    · subst hc
      refine ⟨?_, rest, h2, ?_⟩
      · intro e he
        simp only [comma_segments, if_true, List.mem_cons] at he
        rcases he with rfl | he
        · simp
        · exact h1 e he
      · simp only [comma_segments, if_true, List.map_cons, List.flatten_cons, List.nil_append,
          List.singleton_append, List.cons_append]
        rw [← h3]
    · cases hseg : comma_segments cs with
      | nil =>
        rw [hseg] at h3
        simp only [List.map_nil, List.flatten_nil, List.nil_append] at h3
        refine ⟨by simp [comma_segments, hc, hseg], c :: cs, ?_, by simp [comma_segments, hc, hseg]⟩
        rw [h3]
        simp only [List.mem_cons, not_or]
        exact ⟨fun e => hc e.symm, h2⟩
      | cons e es =>
        rw [hseg] at h1 h3
        refine ⟨?_, rest, h2, ?_⟩
        · intro e2 he2
          simp only [comma_segments, hc, if_false, hseg, List.mem_cons] at he2
          rcases he2 with rfl | he2
          · simp only [List.mem_cons, not_or]
            exact ⟨fun e => hc e.symm, h1 e (List.mem_cons_self e es)⟩
          · exact h1 e2 (List.mem_cons_of_mem e he2)
        · simp only [comma_segments, hc, if_false, hseg, List.map_cons, List.flatten_cons,
            List.cons_append]
          simp only [List.map_cons, List.flatten_cons] at h3
          rw [← h3]


/-- C18: for a line matched as `ENUM` whose first `{` precedes its first `}`,
the emitted tags are, in order, one `K_KEYWORD` tag for each comma between the
two braces whose segment (the text since the `{` or since the previous comma)
is not blank, named by the segment without its leading whitespace; blank
segments and the text after the last comma yield no tag. -/
theorem enum_tags_by_segment (line : Line) (i j : Nat)
    (hmatch : have_keyword line = KW_ENUM)
    (hi : FirstChar line '{' i) (hj : FirstChar line '}' j) (hij : i < j) :
    process_keyword (have_keyword line) line
      = ⟨segment_tags (comma_segments (slice line (i + 1) j)), Status.ok⟩ ∧
    (∀ e ∈ comma_segments (slice line (i + 1) j), ',' ∉ e) ∧
    ∃ rest, ',' ∉ rest ∧
      slice line (i + 1) j
        = ((comma_segments (slice line (i + 1) j)).map (fun e => e ++ [','])).flatten ++ rest := by
  refine ⟨?_, comma_segments_spec _⟩
  have hjl := firstChar_lt hj
  have hlen : (slice line (i + 1) j).length < line.length + 2 := by
    simp only [slice, List.length_take, List.length_drop]
    omega
  have := enum_loop_segments line j (le_of_lt hjl) (slice line (i + 1) j) (i + 1) (i + 1)
    (line.length + 2) (le_refl _) rfl hlen
  rw [slice_self, segments_after_nil] at this
  rw [hmatch]
  unfold process_keyword
  simp only [if_true, strchr_first line '{' i hi, strchr_first line '}' j hj, Ptr.add]
  exact this

/-- C18, at the line `ENUM{A,,B,C}`: the tags are `A` and `B`. -/
theorem enum_tags_by_segment_witness :
    have_keyword "ENUM\x7bA,,B,C\x7d".toList = KW_ENUM ∧
    FirstChar "ENUM\x7bA,,B,C\x7d".toList '{' 4 ∧
    FirstChar "ENUM\x7bA,,B,C\x7d".toList '}' 11 ∧
    segment_tags (comma_segments (slice "ENUM\x7bA,,B,C\x7d".toList (4 + 1) 11))
      = [⟨"A".toList, K_KEYWORD⟩, ⟨"B".toList, K_KEYWORD⟩] ∧
    process_keyword (have_keyword "ENUM\x7bA,,B,C\x7d".toList) "ENUM\x7bA,,B,C\x7d".toList
      = ⟨segment_tags (comma_segments (slice "ENUM\x7bA,,B,C\x7d".toList (4 + 1) 11)),
          Status.ok⟩ :=
  ⟨by decide, by unfold FirstChar; decide, by unfold FirstChar; decide, by decide,
    (enum_tags_by_segment "ENUM\x7bA,,B,C\x7d".toList 4 11 (by decide)
      (by unfold FirstChar; decide) (by unfold FirstChar; decide) (by decide)).1⟩

/-! ## The span end is searched from the start of the line -/

/-- C17 as stated fails at the line `x. RFX foo.`: it is matched as `RFX`, the
literal ends at offset 6, the first `.` from there on stands at offset 10
with `foo` between them, and yet no tag is emitted, because the first `.` of the line
stands before the literal. -/
theorem earlier_dot_no_tag :
    have_keyword "x. RFX foo.".toList = KW_RFX ∧
    FirstOcc "x. RFX foo.".toList (kw_name KW_RFX) 3 ∧
    "x. RFX foo.".toList[10]? = some '.' ∧
    (∀ k, 3 + (kw_name KW_RFX).length ≤ k → k < 10 → "x. RFX foo.".toList[k]? ≠ some '.') ∧
    NonBlank (slice "x. RFX foo.".toList (3 + (kw_name KW_RFX).length) 10) ∧
    process_keyword (have_keyword "x. RFX foo.".toList) "x. RFX foo.".toList
      = ⟨[], Status.ok⟩ ∧
    (process_keyword (have_keyword "x. RFX foo.".toList) "x. RFX foo.".toList).tags.length
      ≠ 1 := by
  refine ⟨by decide, by unfold FirstOcc; decide, by decide, ?_, by unfold NonBlank; decide,
    by decide, by decide⟩
  intro k h1 h2
  have hk : (kw_name KW_RFX).length = 3 := by decide
  rw [hk] at h1
  interval_cases k <;> decide

/-- C17, amended: for a line matched as `RFX`, `VOC`, `VGRP` or `GRAM` the span
end is the first `.` of the whole line or, when the line has no `.`, the first
`{` of the whole line.  Exactly one tag is emitted when the text between the
end of the keyword literal and that position is not blank; no tag is emitted
otherwise, in particular when that position is not after the literal. -/
theorem keyword_span_end_from_line_start (line : Line) (kw : Int) (s e : Nat)
    (hkw : kw = KW_RFX ∨ kw = KW_VOC ∨ kw = KW_VGRP ∨ kw = KW_GRAM)
    (hmatch : have_keyword line = kw)
    (hs : FirstOcc line (kw_name kw) s)
    (he : FirstChar line '.' e ∨ ('.' ∉ line ∧ FirstChar line '{' e)) :
    (NonBlank (slice line (s + (kw_name kw).length) e) →
      process_keyword (have_keyword line) line
        = ⟨[⟨(slice line (s + (kw_name kw).length) e).dropWhile isspace, kw⟩], Status.ok⟩) ∧
    (¬ NonBlank (slice line (s + (kw_name kw).length) e) →
      process_keyword (have_keyword line) line = ⟨[], Status.ok⟩) ∧
    (e ≤ s + (kw_name kw).length →
      process_keyword (have_keyword line) line = ⟨[], Status.ok⟩) := by
  have hr : KW_RFX ≤ kw ∧ kw ≤ KW_VS := by
    simp only [KW_RFX, KW_VOC, KW_VGRP, KW_GRAM, KW_VS] at *
    omega
  have hpk : process_keyword (have_keyword line) line
      = extract_name line (Ptr.line (s + (kw_name kw).length)) (Ptr.line e) kw := by
    rw [hmatch, process_keyword_range kw line hr.1 hr.2, strstr_first line _ s hs]
    rcases he with hd | ⟨hnd, hb⟩
    · rw [strchr_first line '.' e hd, if_neg (line_ne_null e)]
      rfl
    · rw [(strchr_null line '.').mpr hnd, if_pos rfl, strchr_first line '{' e hb]
      rfl
  have hdelim : ∃ c, FirstChar line c e ∧ isspace c = false := by
    rcases he with hd | ⟨_, hb⟩
    · exact ⟨'.', hd, by decide⟩
    · exact ⟨'{', hb, by decide⟩
  obtain ⟨c, hc, hsp⟩ := hdelim
  have hge : e ≤ s + (kw_name kw).length →
      process_keyword (have_keyword line) line = ⟨[], Status.ok⟩ := by
    intro hle
    rw [hpk, extract_name_ge line _ e kw (by omega)]
  refine ⟨fun hnb => ?_, fun hnb => ?_, hge⟩
  · rw [hpk]
    exact extract_name_delim line _ e c kw hc hsp hnb
  · by_cases hlt : s + (kw_name kw).length < e
    · have hstop : isspace (line.getD e '\x00') = false := by rw [firstChar_getD hc]; exact hsp
      rw [hpk, extract_name_span line _ e kw hlt (le_of_lt (firstChar_lt hc)) hstop]
      have hall : (slice line (s + (kw_name kw).length) e).all isspace = true := by
        rw [List.all_eq_true]
        intro x hx
        by_contra hx2
        exact hnb ⟨x, hx, by simpa using hx2⟩
      rw [if_pos hall]
    · exact hge (by omega)

/-- C17 amended, at the lines `x. RFX foo.` (no tag) and `a{b RFX foo.` (one
tag, named `foo`). -/
theorem keyword_span_end_from_line_start_witness :
    (have_keyword "x. RFX foo.".toList = KW_RFX ∧
      FirstOcc "x. RFX foo.".toList (kw_name KW_RFX) 3 ∧
      FirstChar "x. RFX foo.".toList '.' 1 ∧
      process_keyword (have_keyword "x. RFX foo.".toList) "x. RFX foo.".toList
        = ⟨[], Status.ok⟩) ∧
    (have_keyword "a\x7bb RFX foo.".toList = KW_RFX ∧
      FirstOcc "a\x7bb RFX foo.".toList (kw_name KW_RFX) 4 ∧
      FirstChar "a\x7bb RFX foo.".toList '.' 11 ∧
      process_keyword (have_keyword "a\x7bb RFX foo.".toList) "a\x7bb RFX foo.".toList
        = ⟨[⟨(slice "a\x7bb RFX foo.".toList (4 + (kw_name KW_RFX).length) 11).dropWhile
              isspace, KW_RFX⟩], Status.ok⟩) :=
  ⟨⟨by decide, by unfold FirstOcc; decide, by unfold FirstChar; decide,
      (keyword_span_end_from_line_start "x. RFX foo.".toList KW_RFX 3 1 (Or.inl rfl)
        (by decide) (by unfold FirstOcc; decide)
        (Or.inl (by unfold FirstChar; decide))).2.2 (by decide)⟩,
    ⟨by decide, by unfold FirstOcc; decide, by unfold FirstChar; decide,
      (keyword_span_end_from_line_start "a\x7bb RFX foo.".toList KW_RFX 4 11 (Or.inl rfl)
        (by decide) (by unfold FirstOcc; decide)
        (Or.inl (by unfold FirstChar; decide))).1 (by unfold NonBlank; decide)⟩⟩

/-! ## Where the code departs from its description, continued -/

theorem enum_no_close_brace (line : Line) (h : '}' ∉ line) :
    process_keyword KW_ENUM line = ⟨[], Status.ok⟩ := by
  unfold process_keyword
  simp only [if_true, (strchr_null line '}').mpr h]
  exact enum_loop_null line _ _ _

theorem enum_no_open_brace (line : Line) (h : '{' ∉ line) (hc : '}' ∈ line) :
    process_keyword KW_ENUM line = ⟨[], Status.fault⟩ := by
  rcases strchr_cases line '}' with hq | ⟨j, _, hq⟩
  · exact absurd hc ((strchr_null line '}').mp hq)
  · unfold process_keyword
    simp only [if_true, (strchr_null line '{').mpr h, hq, NULL, Ptr.add]
    exact enum_loop_from_null line j _ _ _

/-- C14, on the code: the line `ENUM A}` is matched as `ENUM` and has no `{`;
`strchr` returns `NULL`, the loop starts at `NULL + 1` below the `}` and reads
there, outside the line: the run ends by a fault instead of quietly emitting
nothing. -/
theorem enum_without_open_brace_faults :
    have_keyword "ENUM A\x7d".toList = KW_ENUM ∧
    '{' ∉ "ENUM A\x7d".toList ∧
    strchr "ENUM A\x7d".toList '{' = NULL ∧
    deref "ENUM A\x7d".toList ((strchr "ENUM A\x7d".toList '{').add 1) = none ∧
    process_keyword (have_keyword "ENUM A\x7d".toList) "ENUM A\x7d".toList
      = ⟨[], Status.fault⟩ := by
  refine ⟨?_, ?_, ?_, ?_, ?_⟩ <;> decide

/-- C16, on the code: scanning the line `ENUM A}` ends by a fault, so the
driver never reaches a line after it: the lines `ENUM A}`, `RFX foo.` together
yield no tag, while `RFX foo.` alone yields the tag `foo`. -/
theorem fault_drops_later_lines :
    findLtdTags ["ENUM A\x7d".toList] = ⟨[], Status.fault⟩ ∧
    findLtdTags ["RFX foo.".toList] = ⟨[⟨"foo".toList, 1⟩], Status.ok⟩ ∧
    findLtdTags (["ENUM A\x7d".toList] ++ ["RFX foo.".toList]) = ⟨[], Status.fault⟩ ∧
    (findLtdTags (["ENUM A\x7d".toList] ++ ["RFX foo.".toList])).tags
      ≠ (findLtdTags ["ENUM A\x7d".toList]).tags ++ (findLtdTags ["RFX foo.".toList]).tags := by
  refine ⟨?_, ?_, ?_, ?_⟩ <;> decide

/-- C19, on the code: the tag of the line `ITEM baz.` is handed to the sink
with kind index 6, while `LtdKinds` has 5 rows: the index is outside the
table. -/
theorem item_tag_kind_outside_table :
    have_keyword "ITEM baz.".toList = KW_ITEM ∧
    scan_line "ITEM baz.".toList = ⟨[⟨"baz".toList, 6⟩], Status.ok⟩ ∧
    LtdKinds.length = 5 ∧ ¬ ((6 : Int) < LtdKinds.length) ∧ kind_entry 6 = none := by
  refine ⟨?_, ?_, ?_, ?_, ?_⟩ <;> decide

end Ltd
